import Mathlib

set_option maxRecDepth 40000

/-!
Shallow embedding of `src/catalyst/exchange/exchange_bundle.py` (class
`ExchangeBundle`): date-range resolution (`get_adj_dates`), chunk planning
(the planning block of `ingest`), the existence check (`check_data_exists`),
per-asset forward-fill reconciliation (the inner loop of `ingest`), and the
overlap-tolerant write step.

Timestamps are modelled as minutes since an epoch (`Nat`); all the code's
timestamp arithmetic is `timedelta(minutes=...)` on minute-floored
`pd.Timestamp`s, so integer minutes are exact. Candle period counts
(`delta_periods`, `bar_count`) are modelled as `ℚ` because the Python code
computes them with true division (`total_seconds() / 60 / 60 / 24`).
-/

/-- An asset as supplied by the external catalog: `{sid, symbol, start_date}`. -/
structure Asset where
  sid : Nat
  symbol : String
  start_date : Nat
  deriving Repr, DecidableEq

/-- A fetched OHLCV candle; `last_traded` is a minute-aligned timestamp.
The reconciler only ever inspects `last_traded`. (`open` is a Lean keyword,
hence `openPrice`.) -/
structure Candle where
  last_traded : Nat
  openPrice : Int
  high : Int
  low : Int
  close : Int
  volume : Int
  deriving Repr, DecidableEq

/-- The configured data frequency, `'minute'` or `'daily'`. -/
inductive DataFrequency where
  | minute
  | daily
  deriving Repr, DecidableEq

/-- One planned chunk, the dict `dict(end=last_chunk_date, bar_count=bar_count)`
from `ingest`. `endTime` is the chunk's `end` timestamp in minutes. -/
structure Chunk where
  endTime : Nat
  bar_count : ℚ
  deriving Repr, DecidableEq

/-! ### Range resolution: `ExchangeBundle.get_adj_dates` (lines 53-74) -/

/-- One iteration of the `earliest_trade` loop of `get_adj_dates` (lines
60-62): `if earliest_trade is None or earliest_trade > asset.start_date:
earliest_trade = asset.start_date`. -/
def earliest_step (earliest : Option Nat) (asset : Asset) : Option Nat :=
  match earliest with
  | none => some asset.start_date
  | some e => if e > asset.start_date then some asset.start_date else some e

/-- The `earliest_trade` loop of `get_adj_dates` (lines 59-62): the running
minimum of `asset.start_date` over the asset list, `None` when it is empty. -/
def earliest_trade (assets : List Asset) : Option Nat :=
  assets.foldl earliest_step none

/-- The end-date clamp of `get_adj_dates` (lines 54-57): `if end > now: end = now`. -/
def adjEnd (now endT : Nat) : Nat :=
  if endT > now then now else endT

/-- The start-date adjustment of `get_adj_dates` (lines 64-69):
`if earliest_trade > start: start = earliest_trade`. -/
def adjStart (assets : List Asset) (start : Nat) : Nat :=
  match earliest_trade assets with
  | none => start
  | some e => if e > start then e else start

/-- Range resolution, `ExchangeBundle.get_adj_dates(start, end)`: clamp `end` to `now`, raise
`start` to the earliest asset `start_date`, and reject `start >= end`
(`ValueError('start date cannot be after end date')`, line 72). -/
def get_adj_dates (now : Nat) (assets : List Asset) (start endT : Nat) :
    Except String (Nat × Nat) :=
  if adjStart assets start ≥ adjEnd now endT then
    Except.error "start date cannot be after end date"
  else
    Except.ok (adjStart assets start, adjEnd now endT)

/-! ### Chunk planning: the planning block of `ExchangeBundle.ingest` (lines 187-216) -/

/-- The `while last_chunk_date > self.start + timedelta(minutes=bar_count)` loop
of `ingest` (lines 203-211), newest-first: emit `{end: last, bar_count: limit}`
and step `last` back by `limit + 1` minutes. `fuel` is an upper bound on the
remaining iterations used only to make the recursion structural; since `last`
strictly decreases each iteration, `fuel = last` at the top level never runs
out (see `planChunksLoopAux_fuel`). -/
def planChunksLoopAux (start limit : Nat) : Nat → Nat → List Chunk
  | 0, _ => []
  | fuel + 1, last =>
    if last > start + limit then
      ⟨last, (limit : ℚ)⟩ :: planChunksLoopAux start limit fuel (last - (limit + 1))
    else []

/-- The chunk-generation loop of `ingest`, entered at `last_chunk_date = end`. -/
def planChunksLoop (start limit last : Nat) : List Chunk :=
  planChunksLoopAux start limit last last

/-- The `delta_periods` computation (lines 187-194): the window length in periods of the
configured frequency, computed with true division. -/
def deltaPeriods (freq : DataFrequency) (start endT : Nat) : ℚ :=
  match freq with
  | .minute => (endT : ℚ) - (start : ℚ)
  | .daily => ((endT : ℚ) - (start : ℚ)) / 1440

/-- The chunk-planning block of `ingest` (lines 199-216): one chunk
`{end, delta_periods}` when the window fits in `num_candles_limit`, otherwise
the newest-first backward walk, reversed to oldest-first. -/
def planChunks (freq : DataFrequency) (start endT limit : Nat) : List Chunk :=
  if deltaPeriods freq start endT > (limit : ℚ) then
    (planChunksLoop start limit endT).reverse
  else
    [⟨endT, deltaPeriods freq start endT⟩]

/-- A minute `t` lies in the window `(end - bar_count, end]` that a planned
chunk is specified to cover. -/
def coveredBy (c : Chunk) (t : ℚ) : Prop :=
  (c.endTime : ℚ) - c.bar_count < t ∧ t ≤ (c.endTime : ℚ)

instance (c : Chunk) (t : ℚ) : Decidable (coveredBy c t) := by
  unfold coveredBy; infer_instance

/-! ### Existence check: `ExchangeBundle.check_data_exists` (lines 149-173) -/

/-- The outcome of one `reader.get_value(sid, ts, 'close')` call: a raised
exception, a NaN, or a numeric close value. -/
inductive ReadResult where
  | raised
  | nanValue
  | value (x : Int)
  deriving Repr, DecidableEq

/-- A bound store reader, as a map from `(sid, timestamp)` to the outcome of
`get_value(sid, timestamp, 'close')`; `none` models `self.reader is None`
(no readable store yet). -/
abbrev StoreReader := Nat → Nat → ReadResult

/-- One iteration of the `check_data_exists` loop (lines 151-171): if
`has_data` still holds and a reader exists, read `close` at `start` (NaN →
`False`), else read `close` at `end` (NaN → `False`); any exception in the
`try` → `False`; no reader, or `has_data` already `False`, → `False`. -/
def check_step (reader : Option StoreReader) (start endT : Nat)
    (has_data : Bool) (asset : Asset) : Bool :=
  if has_data then
    match reader with
    | some r =>
      match r asset.sid start with
      | .raised => false
      | .nanValue => false
      | .value _ =>
        match r asset.sid endT with
        | .raised => false
        | .nanValue => false
        | .value _ => has_data
    | none => false
  else false

/-- The existence check `ExchangeBundle.check_data_exists(assets, start, end)`
(lines 149-173): `has_data = True`, then the per-asset loop. -/
def check_data_exists (reader : Option StoreReader) (assets : List Asset)
    (start endT : Nat) : Bool :=
  assets.foldl (check_step reader start endT) true

/-- The `chunk_assets` filter of `ingest` (lines 231-234): the assets with
`start_date <= chunk_end`. -/
def chunk_assets (assets : List Asset) (chunk_end : Nat) : List Asset :=
  assets.filter (fun asset => decide (asset.start_date ≤ chunk_end))

/-- The skip decision of `ingest` (lines 236-239): a chunk is skipped
(`continue`, no fetch and no write) exactly when `check_data_exists` returns
`True` on its eligible assets. -/
def chunk_skipped (reader : Option StoreReader) (assets : List Asset)
    (chunk_start chunk_end : Nat) : Bool :=
  check_data_exists reader (chunk_assets assets chunk_end) chunk_start chunk_end

/-! ### Forward-fill reconciliation: the inner loop of `ingest` (lines 266-293) -/

/-- The fetched-candle lookup of `ingest` line 274,
`next((candle for candle in asset_candles if candle['last_traded'] == date), previous)`
without its default: the first fetched candle at `date`. -/
def findCandle (asset_candles : List Candle) (date : Nat) : Option Candle :=
  asset_candles.find? (fun candle => candle.last_traded == date)

/-- The `while date <= chunk_end` loop of `ingest` (lines 268-284) for one
asset, with `steps` remaining minute boundaries: at each `date`, take the
first fetched candle with `last_traded == date`, else the carried
`previous_candle`; when a candle results, append `(date, candle)` and update
`previous_candle`. Returns the appended rows (in increasing date order, as
built) and the final carried candle. -/
def reconcileLoop (asset_candles : List Candle) :
    Option Candle → Nat → Nat → List (Nat × Candle) × Option Candle
  | previous, _, 0 => ([], previous)
  | previous, date, steps + 1 =>
    let candle :=
      match findCandle asset_candles date with
      | some c => some c
      | none => previous
    match candle with
    | none => reconcileLoop asset_candles none (date + 1) steps
    | some c =>
      let rest := reconcileLoop asset_candles (some c) (date + 1) steps
      ((date, c) :: rest.1, rest.2)

/-- Per-asset chunk processing (lines 254-293): `if not asset_candles:
continue` skips the asset entirely — no rows, carry state untouched —
otherwise run the reconciliation loop over every minute of
`[chunk_start, chunk_end]`. -/
def processAsset (previous : Option Candle) (asset_candles : List Candle)
    (chunk_start chunk_end : Nat) : List (Nat × Candle) × Option Candle :=
  if asset_candles.isEmpty then ([], previous)
  else reconcileLoop asset_candles previous chunk_start (chunk_end + 1 - chunk_start)

/-! ### Write step: the `try/except` of `ingest` (lines 295-314) -/

/-- The store writer's failure modes. Modelled from the spec: the Bcolz
writers themselves (`catalyst.data.minute_bars`, `catalyst.data.us_equity_pricing`)
are not under `src/`; per the spec the store signals an overlapping write for
the configured granularity with a distinguishable contention condition
(`BcolzMinuteOverlappingData` in the source's `except` clause), and any other
write failure is a distinct, fatal error. -/
inductive StoreError where
  | overlappingData
  | other
  deriving Repr, DecidableEq

/-- The `try/except` around `self.writer.write(...)` (lines 295-314): an
overlapping-data condition is caught and logged (`log.warn`, line 314) and the
loop continues; any other exception propagates out of the loop. -/
def write_chunk_step (outcome : Except StoreError Unit) : Except StoreError Unit :=
  match outcome with
  | .ok _ => .ok ()
  | .error .overlappingData => .ok ()
  | .error .other => .error .other

/-- The per-chunk loop of `ingest` viewed through its write outcomes: process
chunks in order, applying the `try/except` of `write_chunk_step` to each;
returns the number of chunks processed, or the first uncaught error. -/
def run_chunks : List (Except StoreError Unit) → Except StoreError Nat
  | [] => .ok 0
  | outcome :: rest =>
    match write_chunk_step outcome with
    | .ok _ => (run_chunks rest).map (· + 1)
    | .error e => .error e

/-! ### Planner lemmas -/

/-- The fuel of `planChunksLoopAux` is irrelevant as long as it bounds the
current `last_chunk_date`: the loop terminates on its own because `last`
strictly decreases. -/
theorem planChunksLoopAux_fuel (start limit : Nat) :
    ∀ f1 : Nat, ∀ f2 last : Nat, last ≤ f1 → last ≤ f2 →
      planChunksLoopAux start limit f1 last = planChunksLoopAux start limit f2 last := by
  intro f1
  induction f1 with
  | zero =>
    intro f2 last h1 _
    have hlast : last = 0 := Nat.le_zero.mp h1
    subst hlast
    cases f2 with
    | zero => rfl
    | succ g2 =>
      simp only [planChunksLoopAux]
      rw [if_neg (by omega)]
  | succ g1 ih =>
    intro f2 last h1 h2
    cases f2 with
    | zero =>
      have hlast : last = 0 := Nat.le_zero.mp h2
      subst hlast
      simp only [planChunksLoopAux]
      rw [if_neg (by omega)]
    | succ g2 =>
      simp only [planChunksLoopAux]
      by_cases hc : last > start + limit
      · rw [if_pos hc, if_pos hc]
        have := ih g2 (last - (limit + 1)) (by omega) (by omega)
        rw [this]
      · rw [if_neg hc, if_neg hc]

/-- Every chunk the backward walk emits has `end` at most the entry
`last_chunk_date`. -/
theorem planChunksLoopAux_endTime_le (start limit : Nat) :
    ∀ fuel last : Nat, ∀ c ∈ planChunksLoopAux start limit fuel last, c.endTime ≤ last := by
  intro fuel
  induction fuel with
  | zero => intro last c hc; simp [planChunksLoopAux] at hc
  | succ g ih =>
    intro last c hc
    simp only [planChunksLoopAux] at hc
    by_cases hcond : last > start + limit
    · rw [if_pos hcond] at hc
      rcases List.mem_cons.mp hc with h | h
      · subst h; exact Nat.le_refl _
      · have := ih (last - (limit + 1)) c h
        omega
    · rw [if_neg hcond] at hc
      simp at hc

/-- The newest-first chunk list is strictly decreasing in `end`. -/
theorem planChunksLoopAux_pairwise (start limit : Nat) :
    ∀ fuel last : Nat,
      (planChunksLoopAux start limit fuel last).Pairwise
        (fun a b => b.endTime < a.endTime) := by
  intro fuel
  induction fuel with
  | zero => intro last; simp [planChunksLoopAux]
  | succ g ih =>
    intro last
    simp only [planChunksLoopAux]
    by_cases hcond : last > start + limit
    · rw [if_pos hcond]
      refine List.Pairwise.cons ?_ (ih (last - (limit + 1)))
      intro c hc
      have := planChunksLoopAux_endTime_le start limit g (last - (limit + 1)) c hc
      show c.endTime < last
      omega
    · rw [if_neg hcond]
      exact List.Pairwise.nil

/-- Claim C7: for every planned chunk list produced by the planner (single-chunk and
multi-chunk cases alike), the chunks in execution order are strictly increasing
in their `end` timestamp (generated newest-first, then reversed to
oldest-first). -/
theorem planChunks_strictly_increasing (freq : DataFrequency) (start endT limit : Nat) :
    (planChunks freq start endT limit).Pairwise (fun a b => a.endTime < b.endTime) := by
  unfold planChunks
  split
  · exact List.pairwise_reverse.mpr (planChunksLoopAux_pairwise start limit endT endT)
  · exact List.pairwise_singleton _ _

/-- Claim C1: the chunk plan does NOT cover the requested range. At minute
granularity with `start = 0`, `end = 10`, `request_limit = 3`, the planner
emits chunks `{end: 6, bar_count: 3}` and `{end: 10, bar_count: 3}`; the
minute `t = 1` lies in `[start, end]` but in no chunk's window
`(end - bar_count, end]` — the final partial chunk at the oldest boundary is
dropped (the source's own `# TODO: account for the partial last bar`, line
205), and the `bar_count + 1`-minute step also skips minute 7 between the two
windows. -/
theorem planChunks_coverage_gap :
    planChunks .minute 0 10 3 = [⟨6, 3⟩, ⟨10, 3⟩] ∧
    ((0 : ℚ) ≤ 1 ∧ (1 : ℚ) ≤ 10) ∧
    (∀ c ∈ planChunks .minute 0 10 3, ¬ coveredBy c 1) ∧
    (∀ c ∈ planChunks .minute 0 10 3, ¬ coveredBy c 7) := by
  have hd : deltaPeriods .minute 0 10 > ((3 : Nat) : ℚ) := by
    norm_num [deltaPeriods]
  have hplan : planChunks .minute 0 10 3 = [⟨6, 3⟩, ⟨10, 3⟩] := by
    unfold planChunks
    rw [if_pos hd]
    rfl
  refine ⟨hplan, ⟨by norm_num, by norm_num⟩, ?_, ?_⟩
  all_goals
    rw [hplan]
    intro c hc
    fin_cases hc <;> norm_num [coveredBy]

/-- Claim C8: for daily granularity the backward walk steps in minutes, not days.
With `start = 0`, `end = 2882` minutes (just over 2 days) and
`request_limit = 2`, `delta_periods = 2882/1440 > 2`, and the planner emits
960 chunks whose `end`s are 3 minutes apart (the first two are 5 and 8) and
whose windows span `bar_count` minutes — not the 2 chunks stepping
`request_limit + 1` days that day-based periods would give (the source's own
`# TODO: base on frequency`, line 209). -/
theorem planChunks_daily_steps_in_minutes :
    (planChunks .daily 0 2882 2).length = 960 ∧
    (planChunks .daily 0 2882 2).head? = some ⟨5, 2⟩ ∧
    ((planChunks .daily 0 2882 2).tail.head?).map Chunk.endTime = some 8 := by
  have hd : deltaPeriods .daily 0 2882 > ((2 : Nat) : ℚ) := by
    norm_num [deltaPeriods]
  have hplan : planChunks .daily 0 2882 2 = (planChunksLoop 0 2 2882).reverse := by
    unfold planChunks
    rw [if_pos hd]
  rw [hplan]
  exact ⟨by rfl, by rfl, by rfl⟩

/-! ### Reconciler lemmas -/

/-- A candle list with a successful `findCandle` lookup is non-empty. -/
theorem findCandle_ne_nil {asset_candles : List Candle} {t : Nat} {c : Candle}
    (h : findCandle asset_candles t = some c) : asset_candles.isEmpty = false := by
  cases asset_candles with
  | nil => simp [findCandle] at h
  | cons a l => rfl

/-- At a minute with a fetched candle inside the walked window, the emitted
series holds that (first matching) fetched candle. -/
theorem reconcileLoop_lookup_fetched (asset_candles : List Candle) :
    ∀ steps date : Nat, ∀ previous : Option Candle, ∀ t : Nat, ∀ c : Candle,
      findCandle asset_candles t = some c → date ≤ t → t < date + steps →
      ((reconcileLoop asset_candles previous date steps).1.lookup t) = some c := by
  intro steps
  induction steps with
  | zero =>
    intro date prev t c _ h1 h2
    omega
  | succ n ih =>
    intro date prev t c hf h1 h2
    by_cases hdt : date = t
    · subst hdt
      simp only [reconcileLoop, hf]
      simp [List.lookup]
    · have hne : (t == date) = false := beq_eq_false_iff_ne.mpr (Ne.symm hdt)
      cases hfd : findCandle asset_candles date with
      | some c' =>
        simp only [reconcileLoop, hfd]
        simp only [List.lookup, hne]
        exact ih (date + 1) (some c') t c hf (by omega) (by omega)
      | none =>
        cases prev with
        | some p =>
          simp only [reconcileLoop, hfd]
          simp only [List.lookup, hne]
          exact ih (date + 1) (some p) t c hf (by omega) (by omega)
        | none =>
          simp only [reconcileLoop, hfd]
          exact ih (date + 1) none t c hf (by omega) (by omega)

/-- Across a fetchless stretch the walk emits the carried candle at every
minute: if no candle is fetched anywhere in `[date, t]`, the series holds the
incoming `previous_candle` at `t`. -/
theorem reconcileLoop_lookup_carry (asset_candles : List Candle) :
    ∀ steps date : Nat, ∀ c : Candle, ∀ t : Nat,
      (∀ u, date ≤ u → u ≤ t → findCandle asset_candles u = none) →
      date ≤ t → t < date + steps →
      ((reconcileLoop asset_candles (some c) date steps).1.lookup t) = some c := by
  intro steps
  induction steps with
  | zero =>
    intro date c t _ h1 h2
    omega
  | succ n ih =>
    intro date c t hnone h1 h2
    have hfd : findCandle asset_candles date = none := hnone date (Nat.le_refl _) h1
    simp only [reconcileLoop, hfd]
    by_cases hdt : date = t
    · subst hdt
      simp [List.lookup]
    · have hne : (t == date) = false := beq_eq_false_iff_ne.mpr (Ne.symm hdt)
      simp only [List.lookup, hne]
      exact ih (date + 1) c t (fun u hu1 hu2 => hnone u (by omega) hu2) (by omega) (by omega)

/-- Forward fill after an observation: once a candle is fetched at `ta`, every
later minute `t` of the window with no fetched candle anywhere in `(ta, t]`
holds the candle fetched at `ta`, whatever was carried before `ta`. -/
theorem reconcileLoop_lookup_after_fetch (asset_candles : List Candle) :
    ∀ steps date : Nat, ∀ previous : Option Candle, ∀ ta t : Nat, ∀ ca : Candle,
      findCandle asset_candles ta = some ca →
      (∀ u, ta < u → u ≤ t → findCandle asset_candles u = none) →
      date ≤ ta → ta < t → t < date + steps →
      ((reconcileLoop asset_candles previous date steps).1.lookup t) = some ca := by
  intro steps
  induction steps with
  | zero =>
    intro date prev ta t ca _ _ h1 h2 h3
    omega
  | succ n ih =>
    intro date prev ta t ca hfa hnone h1 h2 h3
    by_cases hda : date = ta
    · subst hda
      simp only [reconcileLoop, hfa]
      have hne : (t == date) = false :=
        beq_eq_false_iff_ne.mpr (by omega)
      simp only [List.lookup, hne]
      exact reconcileLoop_lookup_carry asset_candles n (date + 1) ca t
        (fun u hu1 hu2 => hnone u (by omega) hu2) (by omega) (by omega)
    · have hdlt : date < ta := lt_of_le_of_ne h1 hda
      have hne : (t == date) = false := beq_eq_false_iff_ne.mpr (by omega)
      cases hfd : findCandle asset_candles date with
      | some c' =>
        simp only [reconcileLoop, hfd]
        simp only [List.lookup, hne]
        exact ih (date + 1) (some c') ta t ca hfa hnone (by omega) h2 (by omega)
      | none =>
        cases prev with
        | some p =>
          simp only [reconcileLoop, hfd]
          simp only [List.lookup, hne]
          exact ih (date + 1) (some p) ta t ca hfa hnone (by omega) h2 (by omega)
        | none =>
          simp only [reconcileLoop, hfd]
          exact ih (date + 1) none ta t ca hfa hnone (by omega) h2 (by omega)

/-- With a carried candle in hand the walk emits a row at every minute of the
window: the carry can only be replaced, never lost. -/
theorem reconcileLoop_lookup_isSome (asset_candles : List Candle) :
    ∀ steps date : Nat, ∀ c : Candle, ∀ t : Nat,
      date ≤ t → t < date + steps →
      ((reconcileLoop asset_candles (some c) date steps).1.lookup t).isSome = true := by
  intro steps
  induction steps with
  | zero =>
    intro date c t h1 h2
    omega
  | succ n ih =>
    intro date c t h1 h2
    by_cases hdt : date = t
    · subst hdt
      cases hfd : findCandle asset_candles date with
      | some c' => simp only [reconcileLoop, hfd]; simp [List.lookup]
      | none => simp only [reconcileLoop, hfd]; simp [List.lookup]
    · have hne : (t == date) = false := beq_eq_false_iff_ne.mpr (Ne.symm hdt)
      cases hfd : findCandle asset_candles date with
      | some c' =>
        simp only [reconcileLoop, hfd]
        simp only [List.lookup, hne]
        exact ih (date + 1) c' t (by omega) (by omega)
      | none =>
        simp only [reconcileLoop, hfd]
        simp only [List.lookup, hne]
        exact ih (date + 1) c t (by omega) (by omega)

/-- Claim C2: for every asset whose fetched candles include a candle at minute
`ta` and a next fetched candle at minute `tb` with the minutes strictly
between them missing, the reconciled series contains the candle fetched at
`ta` at every minute strictly between `ta` and `tb` (forward fill), and the
candle fetched at `tb` at minute `tb` — e.g. candles at `t0` and `t3` over
window `t0..t4` yield `t0=c0, t1=c0, t2=c0, t3=c3, t4=c3`. -/
theorem forward_fill_between (previous : Option Candle) (asset_candles : List Candle)
    (chunk_start chunk_end ta tb : Nat) (ca cb : Candle)
    (hfa : findCandle asset_candles ta = some ca)
    (hfb : findCandle asset_candles tb = some cb)
    (hgap : ta + 1 < tb)
    (hmid : ∀ u, ta < u → u < tb → findCandle asset_candles u = none)
    (hs : chunk_start ≤ ta) (he : tb ≤ chunk_end) :
    (∀ t, ta < t → t < tb →
      ((processAsset previous asset_candles chunk_start chunk_end).1.lookup t) = some ca) ∧
    ((processAsset previous asset_candles chunk_start chunk_end).1.lookup tb) = some cb := by
  have hemp := findCandle_ne_nil hfa
  unfold processAsset
  rw [hemp]
  simp only [Bool.false_eq_true, if_false]
  constructor
  · intro t ht1 ht2
    exact reconcileLoop_lookup_after_fetch asset_candles (chunk_end + 1 - chunk_start)
      chunk_start previous ta t ca hfa
      (fun u hu1 hu2 => hmid u hu1 (by omega)) hs ht1 (by omega)
  · exact reconcileLoop_lookup_fetched asset_candles (chunk_end + 1 - chunk_start)
      chunk_start previous tb cb hfb (by omega) (by omega)

/-- Witness for C2: the spec's own scenario — candles at `t0` and `t3` over
window `0..4` give `c0` at minutes 1 and 2 and `c3` at minute 3. -/
theorem forward_fill_between_witness :
    ((processAsset none [⟨0, 1, 1, 1, 1, 1⟩, ⟨3, 2, 2, 2, 2, 2⟩] 0 4).1.lookup 1 =
      some ⟨0, 1, 1, 1, 1, 1⟩) ∧
    ((processAsset none [⟨0, 1, 1, 1, 1, 1⟩, ⟨3, 2, 2, 2, 2, 2⟩] 0 4).1.lookup 2 =
      some ⟨0, 1, 1, 1, 1, 1⟩) ∧
    ((processAsset none [⟨0, 1, 1, 1, 1, 1⟩, ⟨3, 2, 2, 2, 2, 2⟩] 0 4).1.lookup 3 =
      some ⟨3, 2, 2, 2, 2, 2⟩) := by
  have h := forward_fill_between none [⟨0, 1, 1, 1, 1, 1⟩, ⟨3, 2, 2, 2, 2, 2⟩]
    0 4 0 3 ⟨0, 1, 1, 1, 1, 1⟩ ⟨3, 2, 2, 2, 2, 2⟩ rfl rfl (by omega)
    (by intro u h1 h2; interval_cases u <;> rfl) (by omega) (by omega)
  exact ⟨h.1 1 (by omega) (by omega), h.1 2 (by omega) (by omega), h.2⟩

/-- Counterexample to C3 as stated: an asset with a carried last-known candle
from an earlier chunk but zero fetched candles in the later chunk gets NO
rows at all for that chunk (`if not asset_candles: continue`, line 256), not
a forward-filled row at every minute of the window. -/
theorem carry_without_fetch_counterexample :
    (processAsset (some ⟨0, 1, 1, 1, 1, 1⟩) [] 5 7).1 = [] ∧
    ¬ (∀ t, 5 ≤ t → t ≤ 7 →
        ((processAsset (some ⟨0, 1, 1, 1, 1, 1⟩) [] 5 7).1.lookup t).isSome = true) := by
  refine ⟨rfl, fun h => ?_⟩
  have := h 5 (by omega) (by omega)
  simp [processAsset, List.lookup] at this

/-- Claim C3 amended: an asset with a carried last-known candle gets a
forward-filled row at every minute of a later chunk's window PROVIDED at
least one candle was fetched for it in that chunk; with zero fetched candles
the asset is skipped outright and contributes no rows even though a carried
candle exists. -/
theorem carry_fill_amended (c : Candle) (asset_candles : List Candle)
    (chunk_start chunk_end : Nat) (hne : asset_candles ≠ []) :
    (∀ t, chunk_start ≤ t → t ≤ chunk_end →
      ((processAsset (some c) asset_candles chunk_start chunk_end).1.lookup t).isSome = true) ∧
    (processAsset (some c) [] chunk_start chunk_end).1 = [] := by
  constructor
  · intro t ht1 ht2
    have hemp : asset_candles.isEmpty = false := by
      cases asset_candles with
      | nil => exact absurd rfl hne
      | cons a l => rfl
    unfold processAsset
    rw [hemp]
    simp only [Bool.false_eq_true, if_false]
    exact reconcileLoop_lookup_isSome asset_candles (chunk_end + 1 - chunk_start)
      chunk_start c t ht1 (by omega)
  · rfl

/-- Witness for the amended C3: one fetched candle at minute 3 plus a carried
candle fill minute 2; the same carried candle with no fetched candles yields
no rows. -/
theorem carry_fill_amended_witness :
    (((processAsset (some ⟨0, 1, 1, 1, 1, 1⟩) [⟨3, 2, 2, 2, 2, 2⟩] 2 4).1.lookup 2).isSome
      = true) ∧
    (processAsset (some ⟨0, 1, 1, 1, 1, 1⟩) [] 2 4).1 = [] := by
  have h := carry_fill_amended ⟨0, 1, 1, 1, 1, 1⟩ [⟨3, 2, 2, 2, 2, 2⟩] 2 4 (by simp)
  exact ⟨h.1 2 (by omega) (by omega), h.2⟩

/-! ### Range-resolution lemmas -/

/-- One iteration of the `earliest_trade` loop never discards the value. -/
theorem earliest_step_isSome (acc : Option Nat) (asset : Asset) :
    (earliest_step acc asset).isSome = true := by
  cases acc with
  | none => rfl
  | some e =>
    simp only [earliest_step]
    by_cases h : e > asset.start_date <;> simp [h]

/-- Once the `earliest_trade` loop holds a value it keeps holding one. -/
theorem foldl_earliest_isSome (assets : List Asset) :
    ∀ x : Nat, ∃ m, assets.foldl earliest_step (some x) = some m := by
  induction assets with
  | nil => intro x; exact ⟨x, rfl⟩
  | cons a l ih =>
    intro x
    simp only [List.foldl_cons]
    cases hstep : earliest_step (some x) a with
    | none => simpa [hstep] using earliest_step_isSome (some x) a
    | some y => exact ih y

/-- Over a non-empty asset list `earliest_trade` yields a value. -/
theorem earliest_trade_isSome {assets : List Asset} (hne : assets ≠ []) :
    ∃ m, earliest_trade assets = some m := by
  cases assets with
  | nil => exact absurd rfl hne
  | cons a l =>
    unfold earliest_trade
    simp only [List.foldl_cons]
    cases hstep : earliest_step none a with
    | none => simpa [hstep] using earliest_step_isSome none a
    | some y => exact foldl_earliest_isSome l y

/-- The value of the `earliest_trade` loop is one of the inputs: either the
accumulator it started from or some asset's `start_date`. -/
theorem foldl_earliest_mem (assets : List Asset) :
    ∀ acc : Option Nat, ∀ m : Nat, assets.foldl earliest_step acc = some m →
      acc = some m ∨ ∃ a ∈ assets, a.start_date = m := by
  induction assets with
  | nil => intro acc m h; exact Or.inl h
  | cons a l ih =>
    intro acc m h
    simp only [List.foldl_cons] at h
    rcases ih (earliest_step acc a) m h with hstep | ⟨b, hb, hbm⟩
    · cases acc with
      | none =>
        simp only [earliest_step] at hstep
        exact Or.inr ⟨a, List.mem_cons_self a l, Option.some_injective _ hstep |>.symm ▸ rfl⟩
      | some e =>
        simp only [earliest_step] at hstep
        by_cases hcmp : e > a.start_date
        · rw [if_pos hcmp] at hstep
          exact Or.inr ⟨a, List.mem_cons_self a l, Option.some_injective _ hstep⟩
        · rw [if_neg hcmp] at hstep
          exact Or.inl hstep
    · exact Or.inr ⟨b, List.mem_cons_of_mem a hb, hbm⟩

/-- `earliest_trade` returns the `start_date` of one of the assets. -/
theorem earliest_trade_mem {assets : List Asset} {m : Nat}
    (h : earliest_trade assets = some m) : ∃ a ∈ assets, a.start_date = m := by
  rcases foldl_earliest_mem assets none m h with hacc | hmem
  · exact absurd hacc (by simp)
  · exact hmem

/-- The adjusted start date never drops below `earliest_trade`. -/
theorem adjStart_ge {assets : List Asset} {m : Nat} (start : Nat)
    (h : earliest_trade assets = some m) : m ≤ adjStart assets start := by
  simp only [adjStart, h]
  by_cases hcmp : m > start
  · rw [if_pos hcmp]
  · rw [if_neg hcmp]; omega

/-- Claim C5: for every input whose adjusted values satisfy
`start' >= end'` (after clamping `end` to `now` and raising `start` to the
earliest asset `start_date`), range resolution fails with the invalid-range
error and returns no range. -/
theorem get_adj_dates_invalid (now : Nat) (assets : List Asset) (start endT : Nat)
    (h : adjStart assets start ≥ adjEnd now endT) :
    get_adj_dates now assets start endT =
      Except.error "start date cannot be after end date" := by
  unfold get_adj_dates
  rw [if_pos h]

/-- Witness for C5: `now = 5`, `start = 10`, `end = 20`, one asset listed from
day 3 — the clamped end (5) is below the adjusted start (10). -/
theorem get_adj_dates_invalid_witness :
    adjStart [⟨1, "btc", 3⟩] 10 ≥ adjEnd 5 20 ∧
    get_adj_dates 5 [⟨1, "btc", 3⟩] 10 20 =
      Except.error "start date cannot be after end date" :=
  ⟨by decide, get_adj_dates_invalid 5 [⟨1, "btc", 3⟩] 10 20 (by decide)⟩

/-- Claim C6: whenever range resolution succeeds on a non-empty asset set, the
resolved start is at least the minimum `start_date` over all assets (some
asset's `start_date` is `≤ start'`, and `earliest_trade` is that minimum), and
the resolved end is at most `now` when the requested end was in the future,
otherwise it equals the requested end. -/
theorem get_adj_dates_monotone (now : Nat) (assets : List Asset) (start endT s' e' : Nat)
    (hne : assets ≠ [])
    (h : get_adj_dates now assets start endT = Except.ok (s', e')) :
    (∃ a ∈ assets, a.start_date ≤ s') ∧
    (now < endT → e' ≤ now) ∧ (endT ≤ now → e' = endT) := by
  unfold get_adj_dates at h
  by_cases hcmp : adjStart assets start ≥ adjEnd now endT
  · rw [if_pos hcmp] at h
    exact absurd h (by simp)
  · rw [if_neg hcmp] at h
    have hs : s' = adjStart assets start := by
      have := congrArg (fun x => match x with | Except.ok p => p.1 | _ => 0) h
      simpa using this.symm
    have he : e' = adjEnd now endT := by
      have := congrArg (fun x => match x with | Except.ok p => p.2 | _ => 0) h
      simpa using this.symm
    obtain ⟨m, hm⟩ := earliest_trade_isSome hne
    obtain ⟨a, ha, ham⟩ := earliest_trade_mem hm
    refine ⟨⟨a, ha, ?_⟩, ?_, ?_⟩
    · rw [hs, ham]
      exact adjStart_ge start hm
    · intro hfut
      rw [he]
      unfold adjEnd
      rw [if_pos hfut]
    · intro hpast
      rw [he]
      unfold adjEnd
      rw [if_neg (by omega)]

/-- Witness for C6: `now = 100`, requested range `[0, 200]`, one asset listed
from day 5 — resolution gives `(5, 100)`. -/
theorem get_adj_dates_monotone_witness :
    get_adj_dates 100 [⟨1, "btc", 5⟩] 0 200 = Except.ok (5, 100) ∧
    ((∃ a ∈ [(⟨1, "btc", 5⟩ : Asset)], a.start_date ≤ 5) ∧
      (100 < 200 → 100 ≤ 100) ∧ (200 ≤ 100 → 100 = 200)) :=
  ⟨by rfl, get_adj_dates_monotone 100 [⟨1, "btc", 5⟩] 0 200 5 100 (by simp) (by rfl)⟩

/-! ### Existence-check lemmas -/

/-- Once `has_data` is `False` the loop keeps it `False`. -/
theorem foldl_check_false (reader : Option StoreReader) (start endT : Nat) :
    ∀ assets : List Asset,
      assets.foldl (check_step reader start endT) false = false := by
  intro assets
  induction assets with
  | nil => rfl
  | cons a l ih => simpa [check_step] using ih

/-- When `check_data_exists` returns `True`, every asset of the set had both
endpoint reads succeed with a non-NaN value through an existing reader. -/
theorem check_true_forall (reader : Option StoreReader) (start endT : Nat) :
    ∀ assets : List Asset,
      check_data_exists reader assets start endT = true →
      ∀ a ∈ assets, ∃ r, reader = some r ∧
        (∃ x, r a.sid start = ReadResult.value x) ∧
        (∃ y, r a.sid endT = ReadResult.value y) := by
  intro assets
  induction assets with
  | nil => intro _ a ha; simp at ha
  | cons a0 l ih =>
    intro h a ha
    unfold check_data_exists at h
    simp only [List.foldl_cons] at h
    have hstep : check_step reader start endT true a0 = true := by
      by_contra hfalse
      have : check_step reader start endT true a0 = false := by
        cases hv : check_step reader start endT true a0
        · rfl
        · exact absurd hv hfalse
      rw [this, foldl_check_false] at h
      exact Bool.false_ne_true h
    have hrest : check_data_exists reader l start endT = true := by
      unfold check_data_exists
      rw [hstep] at h
      exact h
    have ha0 : ∃ r, reader = some r ∧
        (∃ x, r a0.sid start = ReadResult.value x) ∧
        (∃ y, r a0.sid endT = ReadResult.value y) := by
      unfold check_step at hstep
      simp only [if_pos] at hstep
      cases hr : reader with
      | none => rw [hr] at hstep; simp at hstep
      | some r =>
        rw [hr] at hstep
        cases hvs : r a0.sid start with
        | raised => simp [hvs] at hstep
        | nanValue => simp [hvs] at hstep
        | value x =>
          simp only [hvs] at hstep
          cases hve : r a0.sid endT with
          | raised => simp [hve] at hstep
          | nanValue => simp [hve] at hstep
          | value y => exact ⟨r, rfl, ⟨x, hvs⟩, ⟨y, hve⟩⟩
    rcases List.mem_cons.mp ha with heq | hmem
    · subst heq; exact ha0
    · exact ih hrest a hmem

/-- Claim C4: on a non-empty asset set the existence check returns `True` only
if a reader exists and, for every asset, the `close` reads at both window
endpoints succeed with non-NaN values; contrapositively, any missing reader,
raised read, or NaN endpoint for any asset makes the result `False` for the
whole set. -/
theorem check_data_exists_conservative (reader : Option StoreReader)
    (assets : List Asset) (start endT : Nat) (hne : assets ≠ [])
    (h : check_data_exists reader assets start endT = true) :
    ∃ r, reader = some r ∧ ∀ a ∈ assets,
      (∃ x, r a.sid start = ReadResult.value x) ∧
      (∃ y, r a.sid endT = ReadResult.value y) := by
  have hall := check_true_forall reader start endT assets h
  cases assets with
  | nil => exact absurd rfl hne
  | cons a0 l =>
    obtain ⟨r, hr, _⟩ := hall a0 (List.mem_cons_self a0 l)
    refine ⟨r, hr, fun a ha => ?_⟩
    obtain ⟨r', hr', hvs, hve⟩ := hall a ha
    have : r' = r := by
      rw [hr] at hr'
      exact (Option.some_injective _ hr').symm
    subst this
    exact ⟨hvs, hve⟩

/-- Witness for C4: a reader answering 7 everywhere makes the check pass for
one asset, and both endpoint reads are indeed values. -/
theorem check_data_exists_conservative_witness :
    check_data_exists (some fun _ _ => ReadResult.value 7) [⟨1, "btc", 0⟩] 2 9 = true ∧
    ∃ r, (some fun _ _ => ReadResult.value 7 : Option StoreReader) = some r ∧
      ∀ a ∈ [(⟨1, "btc", 0⟩ : Asset)],
        (∃ x, r a.sid 2 = ReadResult.value x) ∧
        (∃ y, r a.sid 9 = ReadResult.value y) :=
  ⟨rfl, check_data_exists_conservative (some fun _ _ => ReadResult.value 7)
    [⟨1, "btc", 0⟩] 2 9 (by simp) rfl⟩

/-- Claim C10: for an empty asset list the existence check returns `True` for
every window — regardless of the store's state and even with no reader — so a
chunk whose eligible asset subset (`start_date <= chunk_end`) is empty is
skipped without any fetch or write. -/
theorem empty_assets_skip (reader : Option StoreReader) (assets : List Asset)
    (chunk_start chunk_end : Nat) :
    check_data_exists reader [] chunk_start chunk_end = true ∧
    (chunk_assets assets chunk_end = [] →
      chunk_skipped reader assets chunk_start chunk_end = true) := by
  refine ⟨rfl, fun h => ?_⟩
  unfold chunk_skipped
  rw [h]
  rfl

/-- Witness for C10: no reader at all, and one asset listed only from minute
10, make the chunk ending at minute 5 skip. -/
theorem empty_assets_skip_witness :
    check_data_exists none [] 0 5 = true ∧
    chunk_skipped none [⟨1, "btc", 10⟩] 0 5 = true :=
  ⟨(empty_assets_skip none [⟨1, "btc", 10⟩] 0 5).1,
    (empty_assets_skip none [⟨1, "btc", 10⟩] 0 5).2 rfl⟩

/-! ### Write-step lemmas -/

/-- Claim C9: every chunk whose write raises the store's overlapping-write
condition is caught and treated as already ingested, and the per-chunk loop
continues: a run whose write failures are all overlapping-data conditions
processes every chunk and does not abort. -/
theorem run_chunks_overlap_nonfatal (outcomes : List (Except StoreError Unit))
    (h : ∀ o ∈ outcomes, o ≠ Except.error StoreError.other) :
    run_chunks outcomes = Except.ok outcomes.length := by
  induction outcomes with
  | nil => rfl
  | cons o rest ih =>
    have hrest := ih (fun x hx => h x (List.mem_cons_of_mem o hx))
    cases o with
    | ok u =>
      simp only [run_chunks, write_chunk_step, hrest, Except.map]
      rfl
    | error e =>
      cases e with
      | overlappingData =>
        simp only [run_chunks, write_chunk_step, hrest, Except.map]
        rfl
      | other => exact absurd rfl (h _ (List.mem_cons_self _ rest))

/-- Witness for C9: a run of three chunks whose middle write hits the
overlapping-data condition still processes all three chunks. -/
theorem run_chunks_overlap_nonfatal_witness :
    run_chunks [Except.ok (), Except.error StoreError.overlappingData, Except.ok ()] =
      Except.ok 3 := by
  have h := run_chunks_overlap_nonfatal
    [Except.ok (), Except.error StoreError.overlappingData, Except.ok ()]
    (by intro o ho; fin_cases ho <;> simp)
  simpa using h
